import Mathlib

/-!
Verification development for the `mm` command-line mail submission agent.

The Go program is shallowly embedded: strings are `List Char` (Go strings are
byte sequences; all data handled by the program is compared bytewise, and on
the ASCII range — the only range exercised by the header keywords the program
treats specially — byte order, UTF-8 order and codepoint order coincide).
A Go `map[string]string` is an association list whose keys are distinct; map
iteration order is modelled by the list order, and order-independence of the
serialization is proved as a theorem.  `crypto/rand.Read` outcomes and the
clock are passed as explicit parameters.  The SMTP session is embedded as a
pure function from per-step outcomes to the trace of protocol actions
attempted plus the final success flag (process exit 0 = `true`).
-/

/-- Convert a Lean string literal to the `List Char` representation used
throughout this development. -/
def str (s : String) : List Char := s.data

/-- Go `unicode.IsSpace`, restricted to the characters that can actually occur
in the ASCII header material handled here (the full Go table additionally
contains non-ASCII Unicode space characters, which behave identically for the
properties proved below). -/
def goIsSpace (c : Char) : Bool :=
  c = ' ' || c = '\t' || c = '\n' || c = Char.ofNat 11 || c = Char.ofNat 12 || c = '\r'

/-- Left half of Go `strings.TrimSpace`. -/
def trimLeftSpace : List Char → List Char
  | [] => []
  | c :: cs => if goIsSpace c then trimLeftSpace cs else c :: cs

/-- Right half of Go `strings.TrimSpace`. -/
def trimRightSpace (s : List Char) : List Char :=
  (trimLeftSpace s.reverse).reverse

/-- Go `strings.TrimSpace`. -/
def trimSpace (s : List Char) : List Char :=
  trimRightSpace (trimLeftSpace s)

/-- Helper for Go `strings.Trim`: drop leading characters belonging to the
cutset. -/
def trimLeftIn (cut : List Char) : List Char → List Char
  | [] => []
  | c :: cs => if c ∈ cut then trimLeftIn cut cs else c :: cs

/-- Go `strings.Trim s cutset`: drop leading and trailing characters belonging
to the cutset. -/
def trimIn (cut : List Char) (s : List Char) : List Char :=
  ((trimLeftIn cut (trimLeftIn cut s).reverse)).reverse

/-- Go `strings.TrimPrefix`. -/
def trimPrefixStr (s pre : List Char) : List Char :=
  if pre.isPrefixOf s then s.drop pre.length else s

/-- Index of the last occurrence of `c` (Go `strings.LastIndex` with a
one-character needle). -/
def lastIndexOf (c : Char) : List Char → Option Nat
  | [] => none
  | x :: xs =>
    match lastIndexOf c xs with
    | some i => some (i + 1)
    | none => if x = c then some 0 else none

/-- Index of the first occurrence of `c` (Go `strings.Index` with a
one-character needle). -/
def firstIndexOf (c : Char) : List Char → Option Nat
  | [] => none
  | x :: xs => if x = c then some 0 else (firstIndexOf c xs).map (· + 1)

/-- Go `strings.SplitN s ":" 2`, specialised to the way the program uses it:
`some (before, after)` around the first colon when one exists, `none` when the
line contains no colon (Go then returns a single fragment and the program
skips the line). -/
def splitFirstColon : List Char → Option (List Char × List Char)
  | [] => none
  | c :: rest =>
    if c = ':' then some ([], rest)
    else (splitFirstColon rest).map (fun p => (c :: p.1, p.2))

/-- ASCII model of Go `strings.ToLower` (the priority-table keywords are all
ASCII, so only ASCII lowering is observable in the lookups below). -/
def toLowerChar (c : Char) : Char :=
  if 'A' ≤ c ∧ c ≤ 'Z' then Char.ofNat (c.toNat + 32) else c

/-- Go `strings.ToLower` on the ASCII range. -/
def toLowerStr (s : List Char) : List Char := s.map toLowerChar

/-- ASCII model of Go `strings.EqualFold`. -/
def equalFold (a b : List Char) : Bool := toLowerStr a == toLowerStr b

/-- Decimal digits of `n`, accumulator form (Go `fmt.Sprintf "%d"` for the
non-negative integers that occur here); fuel makes the recursion structural. -/
def natDigitsAux : Nat → Nat → List Char → List Char
  | 0, _, acc => acc
  | fuel + 1, n, acc =>
    if n < 10 then Char.ofNat (48 + n % 10) :: acc
    else natDigitsAux fuel (n / 10) (Char.ofNat (48 + n % 10) :: acc)

/-- Decimal representation of a natural number. -/
def natRepr (n : Nat) : List Char := natDigitsAux (n + 1) n []

/-- `EmailAddress` struct of `mm.go`. -/
structure EmailAddress where
  name : List Char
  address : List Char
deriving DecidableEq

/-- The preprocessing of `parseEmailHeader`: strip a `To:` then a `From:`
prefix and trim whitespace. -/
def preprocessAddr (line : List Char) : List Char :=
  trimSpace (trimPrefixStr (trimPrefixStr line (str "To:")) (str "From:"))

/-- `parseEmailHeader` of `mm.go`: angle-bracket form first, then
parenthetical form, else the whole trimmed line is the address. -/
def parseEmailHeader (line : List Char) : EmailAddress :=
  let l := preprocessAddr line
  match lastIndexOf '<' l with
  | some idx =>
    { name := trimSpace (l.take idx), address := trimIn (str "<> ") (l.drop idx) }
  | none =>
    match firstIndexOf '(' l with
    | some idx =>
      { name := trimIn (str "() ") (l.drop idx), address := trimSpace (l.take idx) }
    | none => { name := [], address := l }

/-- The angle-bracket interpretation of an (already preprocessed) address
line: text before the last `<` is the display name, the remainder with
`<`, `>` and spaces trimmed from both ends is the address.  This is the first
branch of `parseEmailHeader` as a standalone function. -/
def angleInterp (l : List Char) : EmailAddress :=
  let idx := (lastIndexOf '<' l).getD 0
  { name := trimSpace (l.take idx), address := trimIn (str "<> ") (l.drop idx) }

/-- A Go `map[string]string`, modelled as an association list with distinct
keys; the list order additionally models one iteration order of the map. -/
abbrev HeaderMap := List (List Char × List Char)

/-- The keys of a header map are distinct (invariant of a Go map). -/
def NodupKeys (m : HeaderMap) : Prop := (m.map Prod.fst).Nodup

/-- Go map lookup, `none` when absent. -/
def mapLookup (m : HeaderMap) (k : List Char) : Option (List Char) :=
  match m with
  | [] => none
  | (k', v) :: rest => if k' = k then some v else mapLookup rest k

/-- Go map indexing `m[k]`: the zero value `""` when the key is absent. -/
def mapGet (m : HeaderMap) (k : List Char) : List Char :=
  (mapLookup m k).getD []

/-- Go map assignment `m[k] = v`: replace in place when present, else append.
Relative to the iteration-order reading of the list this fixes one order; the
serialization is proved independent of it. -/
def mapSet (m : HeaderMap) (k v : List Char) : HeaderMap :=
  match m with
  | [] => [(k, v)]
  | (k', v') :: rest => if k' = k then (k, v) :: rest else (k', v') :: mapSet rest k v

/-- The `headerPriority` table of `mm.go` (lookup is on the lowercased key). -/
def headerPriority (k : List Char) : Option Nat :=
  if k = str "from" then some 1
  else if k = str "reply-to" then some 2
  else if k = str "newsgroups" then some 3
  else if k = str "subject" then some 4
  else if k = str "date" then some 5
  else if k = str "message-id" then some 6
  else if k = str "mime-version" then some 7
  else if k = str "content-transfer-encoding" then some 8
  else if k = str "content-type" then some 9
  else if k = str "references" then some 10
  else if k = str "organization" then some 11
  else none

/-- Go string comparison `s < t` (bytewise lexicographic; on `List Char` the
codepointwise comparison, which UTF-8 byte comparison agrees with). -/
def lexLt : List Char → List Char → Bool
  | [], [] => false
  | [], _ :: _ => true
  | _ :: _, [] => false
  | a :: as, b :: bs => if a < b then true else if b < a then false else lexLt as bs

/-- Go string comparison `s <= t`. -/
def lexLe (s t : List Char) : Bool := !(lexLt t s)

/-- The ordering relation `sort.Strings` sorts by, as a proposition. -/
def strLe (s t : List Char) : Prop := lexLe s t = true

instance : DecidableRel strLe := fun s t => inferInstanceAs (Decidable (lexLe s t = true))

/-- Everything after the first `|`, i.e. `strings.SplitN(h, "|", 2)` part 1 as
used by `sortHeaders` (a `|` is always present in the strings it is applied
to, since `sortHeaders` builds them as `"<rank>|<key>"`). -/
def dropThroughBar : List Char → List Char
  | [] => []
  | c :: rest => if c = '|' then rest else dropThroughBar rest

/-- One output line `"<key>: <value>\r\n"` of the serializer. -/
def renderLine (kv : List Char × List Char) : List Char :=
  kv.1 ++ ':' :: ' ' :: (kv.2 ++ '\r' :: '\n' :: [])

/-- The rendered header block for a list of key/value pairs. -/
def renderLines (pairs : List (List Char × List Char)) : List Char :=
  (pairs.map renderLine).flatten

/-- `sortHeaders` of `mm.go`: split the keys into priority-table keys (tagged
as `"<rank>|<key>"`) and the rest, `sort.Strings` both lists, then render the
priority block followed by the others. -/
def sortHeaders (m : HeaderMap) : List Char :=
  let keys := m.map Prod.fst
  let priorityHeaders :=
    keys.filterMap fun k =>
      (headerPriority (toLowerStr k)).map fun prio => natRepr prio ++ '|' :: k
  let otherHeaders := keys.filter fun k => !(headerPriority (toLowerStr k)).isSome
  ((List.insertionSort strLe priorityHeaders).map fun h =>
      renderLine (dropThroughBar h, mapGet m (dropThroughBar h))).flatten
    ++ ((List.insertionSort strLe otherHeaders).map fun k =>
        renderLine (k, mapGet m k)).flatten

/-- The letter table of `generateRandomLetters`. -/
def lettersTable : List Char := str "abcdefghijklmnopqrstuvwxyz"

/-- `letters[i]` for `i < 26`. -/
def letterChar (i : Nat) : Char := lettersTable.getD i 'a'

/-- `generateRandomLetters n` of `mm.go`.  The outcome of `crypto/rand.Read`
on the `n`-byte buffer is passed explicitly: `some bs` is a successful read
filling the buffer with `bs` (`bs.length = n`), `none` a failed read, in which
case the code returns the fixed fallback `"xxxxx"` whatever `n` is. -/
def generateRandomLetters (res : Option (List Nat)) : List Char :=
  match res with
  | none => str "xxxxx"
  | some bs => bs.map fun b => letterChar (b % 26)

/-- One lowercase hex digit. -/
def hexDigit (n : Nat) : Char :=
  if n < 10 then Char.ofNat (48 + n) else Char.ofNat (87 + n)

/-- Go `fmt.Sprintf "%x"` for one byte: always two lowercase hex digits. -/
def byteHex (b : Nat) : List Char := [hexDigit (b / 16 % 16), hexDigit (b % 16)]

/-- `generateMessageID` of `mm.go`:
`<{5 random bytes in hex}.{unix timestamp}@{5 random letters}.{2 random letters}>`.
`randomBytes` is the content of the 5-byte buffer after the (unchecked)
`rand.Read`; `timestamp` is `time.Now().Unix()`; `domRes`/`tldRes` are the
`rand.Read` outcomes inside the two `generateRandomLetters` calls. -/
def generateMessageID (randomBytes : List Nat) (timestamp : Nat)
    (domRes tldRes : Option (List Nat)) : List Char :=
  let domain := generateRandomLetters domRes
  let tld := generateRandomLetters tldRes
  '<' :: ((randomBytes.map byteHex).flatten
    ++ '.' :: (natRepr timestamp ++ '@' :: (domain ++ '.' :: (tld ++ ['>']))))

/-- The default `From` identity of `mm.go` (`fromEmail` before the scan). -/
def defaultFrom : EmailAddress :=
  { name := str "Mini Mailer", address := str "bounce.me@mini.mailer.msg" }

/-- The fixed `User-Agent` value of `mm.go`. -/
def userAgentValue : List Char := str "Mini Mailer v0.1.2"

/-- Result of the stdin scan of `main`: header map, whether a `From` header
line was seen, the current `fromEmail`, and the remaining body lines. -/
structure ParsedInput where
  headers : HeaderMap
  hasFrom : Bool
  fromEmail : EmailAddress
  bodyLines : List (List Char)
deriving DecidableEq

/-- A parsed header line: split on the first colon, both parts trimmed
(`none` when the line has no colon and is silently skipped). -/
def parseHeaderLine (line : List Char) : Option (List Char × List Char) :=
  match splitFirstColon line with
  | some (a, b) => some (trimSpace a, trimSpace b)
  | none => none

/-- The header-scanning loop of `main`: read lines until the first empty one,
store each colon line in the map (last occurrence wins), and track a
case-insensitive `From` line, whose full text is parsed into `fromEmail`. -/
def scanHeaders : List (List Char) → HeaderMap → Bool → EmailAddress → ParsedInput
  | [], hs, hf, fe => ⟨hs, hf, fe, []⟩
  | line :: rest, hs, hf, fe =>
    if line = [] then ⟨hs, hf, fe, rest⟩
    else
      match parseHeaderLine line with
      | some (key, value) =>
        if equalFold key (str "From") then
          scanHeaders rest (mapSet hs key value) true (parseEmailHeader line)
        else
          scanHeaders rest (mapSet hs key value) hf fe
      | none => scanHeaders rest hs hf fe

/-- Scan an input (as the list of lines produced by `bufio.Scanner`). -/
def parseInput (lines : List (List Char)) : ParsedInput :=
  scanHeaders lines [] false defaultFrom

/-- The header finalization of `main`: synthesize `From` when no `From` line
was seen, synthesize `Message-ID` when the exact key `"Message-ID"` is absent
(`msgid` is the value `generateMessageID` would return), and unconditionally
set `User-Agent`. -/
def finalizeHeaders (p : ParsedInput) (msgid : List Char) : HeaderMap :=
  let hs1 :=
    if p.hasFrom then p.headers
    else mapSet p.headers (str "From")
      (p.fromEmail.name ++ ' ' :: '<' :: (p.fromEmail.address ++ ['>']))
  let hs2 :=
    if (mapLookup hs1 (str "Message-ID")).isSome then hs1
    else mapSet hs1 (str "Message-ID") msgid
  mapSet hs2 (str "User-Agent") userAgentValue

/-- The finalized message of one run: header map, serialized header block,
full wire message, envelope sender and recipient. -/
structure BuiltMessage where
  headers : HeaderMap
  sortedHeaders : List Char
  message : List Char
  sender : List Char
  recipient : List Char
deriving DecidableEq

/-- The message-building half of `main`: scan, finalize, serialize; the
envelope sender is `fromEmail.Address`; the recipient is parsed from the
exact-key lookup `headers["To"]`. -/
def buildMessage (lines : List (List Char)) (msgid : List Char) : BuiltMessage :=
  let p := parseInput lines
  let hs := finalizeHeaders p msgid
  let sorted := sortHeaders hs
  let body := (p.bodyLines.map fun l => l ++ '\r' :: '\n' :: []).flatten
  { headers := hs
    sortedHeaders := sorted
    message := sorted ++ '\r' :: '\n' :: body
    sender := p.fromEmail.address
    recipient := (parseEmailHeader (mapGet hs (str "To"))).address }

/-- One protocol-level step attempted by the delivery half of `main`. -/
inductive SmtpAction where
  | dial
  | greet
  | startTLS
  | authenticate
  | mailFrom (addr : List Char)
  | rcptTo (addr : List Char)
  | dataOpen
  | writeMessage (msg : List Char)
  | closeData
  | quit
deriving DecidableEq

/-- The outcome of each fallible step of the delivery session (the error
result of the corresponding library call, `true` = no error). -/
structure SessionOutcomes where
  proxyInitOk : Bool
  dialOk : Bool
  greetOk : Bool
  tlsOk : Bool
  authOk : Bool
  mailOk : Bool
  rcptOk : Bool
  dataOpenOk : Bool
  writeOk : Bool
  closeOk : Bool
deriving DecidableEq

/-- The delivery half of `main`, from `proxy.SOCKS5` to `c.Quit()`: the list
of steps attempted in order, and the final flag (`true` = exit status 0).
The `StartTLS` error is discarded (`_ = c.StartTLS(...)` in the source), so
`tlsOk` is never consulted; the `Quit` error is likewise ignored. -/
def runSession (useAuth : Bool) (o : SessionOutcomes)
    (sender recipient message : List Char) : List SmtpAction × Bool :=
  if o.proxyInitOk = false then ([], false)
  else if o.dialOk = false then ([.dial], false)
  else if o.greetOk = false then ([.dial, .greet], false)
  else if useAuth && !o.authOk then ([.dial, .greet, .startTLS, .authenticate], false)
  else
    let pre : List SmtpAction :=
      if useAuth then [.dial, .greet, .startTLS, .authenticate]
      else [.dial, .greet, .startTLS]
    if o.mailOk = false then (pre ++ [.mailFrom sender], false)
    else if o.rcptOk = false then (pre ++ [.mailFrom sender, .rcptTo recipient], false)
    else if o.dataOpenOk = false then
      (pre ++ [.mailFrom sender, .rcptTo recipient, .dataOpen], false)
    else if o.writeOk = false then
      (pre ++ [.mailFrom sender, .rcptTo recipient, .dataOpen, .writeMessage message], false)
    else if o.closeOk = false then
      (pre ++ [.mailFrom sender, .rcptTo recipient, .dataOpen, .writeMessage message,
        .closeData], false)
    else
      (pre ++ [.mailFrom sender, .rcptTo recipient, .dataOpen, .writeMessage message,
        .closeData, .quit], true)

/-- The whole run of `main` after flag/config handling: build the message from
the input lines, then drive the delivery session. -/
def mainRun (lines : List (List Char)) (useAuth : Bool) (msgid : List Char)
    (o : SessionOutcomes) : List SmtpAction × Bool :=
  let b := buildMessage lines msgid
  runSession useAuth o b.sender b.recipient b.message

def isDigitChar (c : Char) : Bool := '0' ≤ c && c ≤ '9'

/-- Lowercase hex digit. -/
def isLowerHexChar (c : Char) : Bool := isDigitChar c || ('a' ≤ c && c ≤ 'f')

/-- Lowercase ASCII letter. -/
def isLowerAlphaChar (c : Char) : Bool := 'a' ≤ c && c ≤ 'z'

/-- The full key order `sortHeaders` emits: the sorted tagged priority keys
(tags stripped) followed by the sorted remaining keys. -/
def sortedKeys (m : HeaderMap) : List (List Char) :=
  (List.insertionSort strLe ((m.map Prod.fst).filterMap fun k =>
      (headerPriority (toLowerStr k)).map fun prio => natRepr prio ++ '|' :: k)).map
    dropThroughBar
  ++ List.insertionSort strLe
      ((m.map Prod.fst).filter fun k => !(headerPriority (toLowerStr k)).isSome)

def splitCRLFAux : List Char → List Char → List (List Char)
  | acc, [] => [acc.reverse]
  | acc, [c] => [(c :: acc).reverse]
  | acc, c :: d :: rest =>
    if c = '\r' && d = '\n' then acc.reverse :: splitCRLFAux [] rest
    else splitCRLFAux (c :: acc) (d :: rest)

/-- Split a serialized header block back into its lines. -/
def splitLinesCRLF (s : List Char) : List (List Char) := splitCRLFAux [] s

/-- One reparsing step: store a colon line in the map, skip any other line. -/
def parseLineStep (m : HeaderMap) (line : List Char) : HeaderMap :=
  match parseHeaderLine line with
  | some (k, v) => mapSet m k v
  | none => m

/-- Reparse a list of lines as header lines, rebuilding a header map exactly
the way the scanning loop does (lines without a colon are skipped). -/
def parseHeaderLines (lines : List (List Char)) : HeaderMap :=
  lines.foldl parseLineStep []

/-- The invariants every header map built by the program satisfies: distinct
keys; keys are colon-free, newline-free and trimmed; values are newline-free
and trimmed. -/
def WFHeaderMap (m : HeaderMap) : Prop :=
  NodupKeys m ∧ ∀ kv ∈ m, ':' ∉ kv.1 ∧ '\n' ∉ kv.1 ∧ trimSpace kv.1 = kv.1
    ∧ '\n' ∉ kv.2 ∧ trimSpace kv.2 = kv.2

instance (m : HeaderMap) : Decidable (NodupKeys m) := by
  unfold NodupKeys
  infer_instance

instance (m : HeaderMap) : Decidable (WFHeaderMap m) := by
  unfold WFHeaderMap
  infer_instance

/-- All delivery-session steps succeed (a fully cooperative proxy/server). -/
def allOk : SessionOutcomes :=
  ⟨true, true, true, true, true, true, true, true, true, true⟩

/-- All delivery-session steps succeed except the STARTTLS negotiation. -/
def tlsFailOutcomes : SessionOutcomes :=
  ⟨true, true, true, false, true, true, true, true, true, true⟩

/-! ### Lemmas and claims -/


theorem lexLt_trans {s t u : List Char} (h1 : lexLt s t = true) (h2 : lexLt t u = true) :
    lexLt s u = true := by
  induction s generalizing t u with
  | nil =>
    cases t with
    | nil => simp [lexLt] at h1
    | cons b bs =>
      cases u with
      | nil => simp [lexLt] at h2
      | cons c cs => simp [lexLt]
  | cons a as ih =>
    cases t with
    | nil => simp [lexLt] at h1
    | cons b bs =>
      cases u with
      | nil => simp [lexLt] at h2
      | cons c cs =>
        simp only [lexLt] at h1 h2 ⊢
        by_cases hab : a < b
        · by_cases hbc : b < c
          · simp [lt_trans hab hbc]
          · by_cases hcb : c < b
            · simp [hbc, hcb] at h2
            · have hbceq : b = c := le_antisymm (not_lt.1 hcb) (not_lt.1 hbc)
              subst hbceq
              simp [hab]
        · by_cases hba : b < a
          · simp [hab, hba] at h1
          · have habeq : a = b := le_antisymm (not_lt.1 hba) (not_lt.1 hab)
            subst habeq
            simp only [hab, if_neg hab, lt_irrefl, if_false] at h1
            by_cases hac : a < c
            · simp [hac]
            · by_cases hca : c < a
              · simp [hac, hca] at h2
              · have haceq : a = c := le_antisymm (not_lt.1 hca) (not_lt.1 hac)
                subst haceq
                simp only [lt_irrefl, if_false] at h2
                simp [lt_irrefl, ih h1 h2]

theorem lexLt_trichotomy (s t : List Char) :
    lexLt s t = true ∨ s = t ∨ lexLt t s = true := by
  induction s generalizing t with
  | nil => cases t <;> simp [lexLt]
  | cons a as ih =>
    cases t with
    | nil => simp [lexLt]
    | cons b bs =>
      rcases lt_trichotomy a b with hab | hab | hab
      · exact Or.inl (by simp [lexLt, hab])
      · subst hab
        rcases ih bs with h | h | h
        · exact Or.inl (by simp [lexLt, lt_irrefl, h])
        · exact Or.inr (Or.inl (by rw [h]))
        · exact Or.inr (Or.inr (by simp [lexLt, lt_irrefl, h]))
      · exact Or.inr (Or.inr (by simp [lexLt, hab, lt_asymm hab]))

theorem lexLt_irrefl (s : List Char) : lexLt s s = false := by
  induction s with
  | nil => rfl
  | cons a as ih => simp [lexLt, lt_irrefl, ih]

theorem lexLt_asymm {s t : List Char} (h : lexLt s t = true) : lexLt t s = false := by
  cases h2 : lexLt t s
  · rfl
  · have h3 := lexLt_trans h h2
    rw [lexLt_irrefl] at h3
    cases h3

instance : IsTotal (List Char) strLe := by
  constructor
  intro s t
  unfold strLe lexLe
  cases h : lexLt t s
  · left; rfl
  · right
    rw [lexLt_asymm h]
    rfl

instance : IsTrans (List Char) strLe := by
  constructor
  intro s t u h1 h2
  unfold strLe lexLe at h1 h2 ⊢
  rw [Bool.not_eq_true'] at h1 h2 ⊢
  cases h3 : lexLt u s
  · rfl
  · exfalso
    rcases lexLt_trichotomy s t with h | h | h
    · have h4 := lexLt_trans h3 h
      simp [h2] at h4
    · subst h
      simp [h2] at h3
    · simp [h1] at h

instance : IsAntisymm (List Char) strLe := by
  constructor
  intro s t h1 h2
  unfold strLe lexLe at h1 h2
  rw [Bool.not_eq_true'] at h1 h2
  rcases lexLt_trichotomy s t with h | h | h
  · simp [h2] at h
  · exact h
  · simp [h1] at h

/-! ### Map lemmas -/

theorem mapLookup_mapSet_self (m : HeaderMap) (k v : List Char) :
    mapLookup (mapSet m k v) k = some v := by
  induction m with
  | nil => simp [mapSet, mapLookup]
  | cons kv rest ih =>
    obtain ⟨k', v'⟩ := kv
    simp only [mapSet]
    by_cases h : k' = k
    · simp [h, mapLookup]
    · simp [mapLookup, h, ih]

theorem mapLookup_mapSet_ne (m : HeaderMap) {k' k : List Char} (v : List Char)
    (h : k' ≠ k) : mapLookup (mapSet m k' v) k = mapLookup m k := by
  induction m with
  | nil => simp [mapSet, mapLookup, h]
  | cons kv rest ih =>
    obtain ⟨k0, v0⟩ := kv
    simp only [mapSet]
    by_cases h0 : k0 = k'
    · simp [mapLookup, h0, h]
    · simp only [if_neg h0, mapLookup]
      by_cases h1 : k0 = k
      · simp [h1]
      · simp [h1, ih]

theorem mapGet_mapSet_self (m : HeaderMap) (k v : List Char) :
    mapGet (mapSet m k v) k = v := by
  simp [mapGet, mapLookup_mapSet_self]

theorem mapGet_mapSet_ne (m : HeaderMap) {k' k : List Char} (v : List Char)
    (h : k' ≠ k) : mapGet (mapSet m k' v) k = mapGet m k := by
  simp [mapGet, mapLookup_mapSet_ne m v h]

theorem mapSet_eq_append {m : HeaderMap} {k : List Char} (v : List Char)
    (h : k ∉ m.map Prod.fst) : mapSet m k v = m ++ [(k, v)] := by
  induction m with
  | nil => rfl
  | cons kv rest ih =>
    obtain ⟨k0, v0⟩ := kv
    simp only [List.map_cons, List.mem_cons] at h
    push_neg at h
    simp only [mapSet]
    rw [if_neg fun he => h.1 he.symm]
    simp [ih h.2]

theorem mapLookup_perm {m₁ m₂ : HeaderMap} (h : m₁.Perm m₂) :
    NodupKeys m₁ → ∀ k, mapLookup m₁ k = mapLookup m₂ k := by
  induction h with
  | nil => intro _ _; rfl
  | cons x h ih =>
    intro hnd k
    obtain ⟨kx, vx⟩ := x
    simp only [NodupKeys, List.map_cons, List.nodup_cons] at hnd
    simp only [mapLookup]
    by_cases hk : kx = k
    · simp [hk]
    · simp [hk, ih hnd.2 k]
  | swap x y l =>
    intro hnd k
    obtain ⟨kx, vx⟩ := x
    obtain ⟨ky, vy⟩ := y
    have hne : ky ≠ kx := by
      simp only [NodupKeys, List.map_cons, List.nodup_cons, List.mem_cons, not_or] at hnd
      exact hnd.1.1
    simp only [mapLookup]
    by_cases h1 : ky = k
    · by_cases h2 : kx = k
      · exact absurd (h1.trans h2.symm) hne
      · simp [h1, h2]
    · by_cases h2 : kx = k <;> simp [h1, h2]
  | trans h₁ h₂ ih₁ ih₂ =>
    intro hnd k
    have hnd₂ : NodupKeys _ := ((h₁.map Prod.fst).nodup_iff).mp hnd
    rw [ih₁ hnd k, ih₂ hnd₂ k]

theorem mapGet_perm {m₁ m₂ : HeaderMap} (h : m₁.Perm m₂) (hnd : NodupKeys m₁)
    (k : List Char) : mapGet m₁ k = mapGet m₂ k := by
  simp [mapGet, mapLookup_perm h hnd k]

/-! ### Trimming lemmas -/

theorem trimLeftSpace_length_le (s : List Char) :
    (trimLeftSpace s).length ≤ s.length := by
  induction s with
  | nil => simp [trimLeftSpace]
  | cons c cs ih =>
    simp only [trimLeftSpace]
    split
    · exact le_trans ih (by simp)
    · simp

theorem trimLeftSpace_eq_self_of_length {s : List Char}
    (h : (trimLeftSpace s).length = s.length) : trimLeftSpace s = s := by
  cases s with
  | nil => rfl
  | cons c cs =>
    by_cases hs : goIsSpace c
    · have h2 := trimLeftSpace_length_le cs
      simp [trimLeftSpace, hs] at h
      omega
    · simp [trimLeftSpace, hs]

theorem trimSpace_eq_self_parts {s : List Char} (h : trimSpace s = s) :
    trimLeftSpace s = s ∧ trimRightSpace s = s := by
  have h1 : (trimSpace s).length = s.length := by rw [h]
  have h2 : (trimRightSpace (trimLeftSpace s)).length ≤ (trimLeftSpace s).length := by
    unfold trimRightSpace
    simpa using trimLeftSpace_length_le (trimLeftSpace s).reverse
  have h3 := trimLeftSpace_length_le s
  unfold trimSpace at h1
  have h4 : (trimLeftSpace s).length = s.length := by omega
  have h5 := trimLeftSpace_eq_self_of_length h4
  refine ⟨h5, ?_⟩
  unfold trimSpace at h
  rwa [h5] at h

theorem trimSpace_space_cons {v : List Char} (h : trimSpace v = v) :
    trimSpace (' ' :: v) = v := by
  obtain ⟨hl, hr⟩ := trimSpace_eq_self_parts h
  unfold trimSpace
  have h2 : trimLeftSpace (' ' :: v) = trimLeftSpace v := by
    simp [trimLeftSpace, goIsSpace]
  rw [h2, hl]
  exact hr

theorem mem_trimLeftSpace {c : Char} {s : List Char} (hc : goIsSpace c = false)
    (h : c ∈ s) : c ∈ trimLeftSpace s := by
  induction s with
  | nil => cases h
  | cons d ds ih =>
    simp only [trimLeftSpace]
    split
    · next hd =>
      rcases List.mem_cons.mp h with he | h'
      · rw [← he] at hd; rw [hd] at hc; cases hc
      · exact ih h'
    · exact h

theorem mem_trimSpace {c : Char} {s : List Char} (hc : goIsSpace c = false)
    (h : c ∈ s) : c ∈ trimSpace s := by
  unfold trimSpace trimRightSpace
  rw [List.mem_reverse]
  exact mem_trimLeftSpace hc (List.mem_reverse.mpr (mem_trimLeftSpace hc h))

theorem mem_trimPrefixStr {c : Char} {s pre : List Char} (hpre : c ∉ pre)
    (h : c ∈ s) : c ∈ trimPrefixStr s pre := by
  unfold trimPrefixStr
  split
  · next hp =>
    obtain ⟨t, ht⟩ := List.isPrefixOf_iff_prefix.mp hp
    rw [← ht] at h ⊢
    rw [List.drop_left]
    rcases List.mem_append.mp h with h' | h'
    · exact absurd h' hpre
    · exact h'
  · exact h

theorem lastIndexOf_isSome_of_mem {c : Char} {s : List Char} (h : c ∈ s) :
    ∃ i, lastIndexOf c s = some i := by
  induction s with
  | nil => cases h
  | cons d ds ih =>
    simp only [lastIndexOf]
    cases hm : lastIndexOf c ds with
    | some i => exact ⟨i + 1, rfl⟩
    | none =>
      rcases List.mem_cons.mp h with he | h'
      · exact ⟨0, by simp [← he]⟩
      · obtain ⟨i, hi⟩ := ih h'
        rw [hi] at hm
        cases hm

/-! ### Digit lemmas -/

/-- ASCII decimal digit. -/

theorem isDigitChar_ofNat : ∀ k, k < 10 → isDigitChar (Char.ofNat (48 + k)) = true := by
  decide

theorem isLowerHexChar_hexDigit : ∀ k, k < 16 → isLowerHexChar (hexDigit k) = true := by
  decide

theorem isLowerAlphaChar_letterChar : ∀ k, k < 26 → isLowerAlphaChar (letterChar k) = true := by
  decide

theorem natDigitsAux_digits : ∀ (fuel n : Nat) (acc : List Char), n < fuel →
    acc.all isDigitChar = true →
    (natDigitsAux fuel n acc).all isDigitChar = true ∧ natDigitsAux fuel n acc ≠ [] := by
  intro fuel
  induction fuel with
  | zero => intro n acc h; omega
  | succ f ih =>
    intro n acc hn hacc
    simp only [natDigitsAux]
    by_cases h10 : n < 10
    · simp only [if_pos h10]
      refine ⟨?_, by simp⟩
      simp [List.all_cons, hacc, isDigitChar_ofNat (n % 10) (Nat.mod_lt _ (by omega))]
    · simp only [if_neg h10]
      apply ih
      · have hlt : n / 10 < n := Nat.div_lt_self (by omega) (by omega)
        omega
      · simp [List.all_cons, hacc, isDigitChar_ofNat (n % 10) (Nat.mod_lt _ (by omega))]

theorem natRepr_all_digits (n : Nat) : (natRepr n).all isDigitChar = true :=
  (natDigitsAux_digits (n + 1) n [] (by omega) rfl).1

theorem natRepr_ne_nil (n : Nat) : natRepr n ≠ [] :=
  (natDigitsAux_digits (n + 1) n [] (by omega) rfl).2

theorem natRepr_no_bar (n : Nat) : ∀ c ∈ natRepr n, c ≠ '|' := by
  intro c hc he
  have h := natRepr_all_digits n
  rw [List.all_eq_true] at h
  have h2 := h c hc
  subst he
  exact absurd h2 (by decide)

/-! ### Serialization order lemmas -/

theorem dropThroughBar_tag {w : List Char} (hw : ∀ c ∈ w, c ≠ '|') (k : List Char) :
    dropThroughBar (w ++ '|' :: k) = k := by
  induction w with
  | nil => simp [dropThroughBar]
  | cons c cs ih =>
    simp only [List.cons_append, dropThroughBar]
    rw [if_neg (hw c (by simp))]
    exact ih fun d hd => hw d (by simp [hd])

theorem extract_prio_tags (keys : List (List Char)) :
    ((keys.filterMap fun k =>
        (headerPriority (toLowerStr k)).map fun prio => natRepr prio ++ '|' :: k).map
      dropThroughBar)
    = keys.filter fun k => (headerPriority (toLowerStr k)).isSome := by
  induction keys with
  | nil => rfl
  | cons k rest ih =>
    cases hp : headerPriority (toLowerStr k) with
    | none => simp [List.filterMap_cons, List.filter_cons, hp, ih]
    | some p =>
      simp [List.filterMap_cons, List.filter_cons, hp, ih,
        dropThroughBar_tag (natRepr_no_bar p) k]

theorem sortHeaders_eq_render (m : HeaderMap) :
    sortHeaders m = renderLines ((sortedKeys m).map fun k => (k, mapGet m k)) := by
  simp [sortHeaders, sortedKeys, renderLines, List.map_append, List.map_map,
    Function.comp_def]

theorem sortedKeys_perm (m : HeaderMap) : (sortedKeys m).Perm (m.map Prod.fst) := by
  unfold sortedKeys
  refine List.Perm.trans (List.Perm.append ?_ ?_)
    (List.filter_append_perm (fun k => (headerPriority (toLowerStr k)).isSome) _)
  · have h1 := (List.perm_insertionSort strLe
      ((m.map Prod.fst).filterMap fun k =>
        (headerPriority (toLowerStr k)).map fun prio =>
          natRepr prio ++ '|' :: k)).map dropThroughBar
    rw [extract_prio_tags] at h1
    exact h1
  · exact List.perm_insertionSort strLe _

theorem sortHeaders_perm {m₁ m₂ : HeaderMap} (h : m₁.Perm m₂) (hnd : NodupKeys m₁) :
    sortHeaders m₁ = sortHeaders m₂ := by
  have hkeys : (m₁.map Prod.fst).Perm (m₂.map Prod.fst) := h.map Prod.fst
  have htags := hkeys.filterMap fun k =>
    (headerPriority (toLowerStr k)).map fun prio => natRepr prio ++ '|' :: k
  have hothers := hkeys.filter fun k => !(headerPriority (toLowerStr k)).isSome
  have hsortA : List.insertionSort strLe
      ((m₁.map Prod.fst).filterMap fun k =>
        (headerPriority (toLowerStr k)).map fun prio => natRepr prio ++ '|' :: k)
      = List.insertionSort strLe
        ((m₂.map Prod.fst).filterMap fun k =>
          (headerPriority (toLowerStr k)).map fun prio => natRepr prio ++ '|' :: k) :=
    List.eq_of_perm_of_sorted
      ((List.perm_insertionSort _ _).trans
        (htags.trans (List.perm_insertionSort _ _).symm))
      (List.sorted_insertionSort _ _) (List.sorted_insertionSort _ _)
  have hsortB : List.insertionSort strLe
      ((m₁.map Prod.fst).filter fun k => !(headerPriority (toLowerStr k)).isSome)
      = List.insertionSort strLe
        ((m₂.map Prod.fst).filter fun k => !(headerPriority (toLowerStr k)).isSome) :=
    List.eq_of_perm_of_sorted
      ((List.perm_insertionSort _ _).trans
        (hothers.trans (List.perm_insertionSort _ _).symm))
      (List.sorted_insertionSort _ _) (List.sorted_insertionSort _ _)
  have hsk : sortedKeys m₁ = sortedKeys m₂ := by
    unfold sortedKeys
    rw [hsortA, hsortB]
  rw [sortHeaders_eq_render, sortHeaders_eq_render, hsk]
  unfold renderLines
  congr 1
  rw [List.map_map, List.map_map]
  apply List.map_congr_left
  intro k _
  simp [Function.comp, mapGet_perm h hnd k]

/-! ### Serialize / reparse round trip -/

/-- Split a text block on `"\r\n"` separators, accumulator form
(Go `strings.Split(s, "\r\n")` restricted to the separator the serializer
emits). -/

theorem splitCRLFAux_consume {w : List Char} (hw : '\n' ∉ w) :
    ∀ (acc rest : List Char),
      splitCRLFAux acc (w ++ '\r' :: '\n' :: rest)
        = (acc.reverse ++ w) :: splitCRLFAux [] rest := by
  induction w with
  | nil =>
    intro acc rest
    simp [splitCRLFAux]
  | cons c w' ih =>
    intro acc rest
    cases w' with
    | nil =>
      have hc : ¬(c = '\r' && '\r' = '\n') = true := by simp
      simp only [List.cons_append, List.nil_append, splitCRLFAux, hc, if_false]
      simp [splitCRLFAux]
    | cons d w'' =>
      have hd : d ≠ '\n' := by
        intro he
        exact hw (by simp [he])
      have hc : ¬((c = '\r' && d = '\n') = true) := by simp [hd]
      have hw' : '\n' ∉ d :: w'' := fun hm => hw (List.mem_cons_of_mem c hm)
      have h2 := ih hw' (c :: acc) rest
      simp only [List.cons_append, splitCRLFAux]
      rw [if_neg hc]
      simp only [List.cons_append] at h2
      simpa using h2

theorem splitLines_renderLines (pairs : List (List Char × List Char))
    (h : ∀ kv ∈ pairs, '\n' ∉ kv.1 ∧ '\n' ∉ kv.2) :
    splitLinesCRLF (renderLines pairs)
      = (pairs.map fun kv => kv.1 ++ ':' :: ' ' :: kv.2) ++ [[]] := by
  induction pairs with
  | nil => rfl
  | cons kv rest ih =>
    obtain ⟨k, v⟩ := kv
    have hk := (h (k, v) (by simp)).1
    have hv := (h (k, v) (by simp)).2
    have hw : '\n' ∉ k ++ ':' :: ' ' :: v := by
      intro hm
      rcases List.mem_append.mp hm with h1 | h1
      · exact hk h1
      · rcases List.mem_cons.mp h1 with he | h1
        · exact absurd he (by decide)
        · rcases List.mem_cons.mp h1 with he | h1
          · exact absurd he (by decide)
          · exact hv h1
    unfold splitLinesCRLF renderLines
    simp only [List.map_cons, List.flatten_cons, renderLine]
    have hshape : (k ++ ':' :: ' ' :: (v ++ '\r' :: '\n' :: [])) ++ (rest.map renderLine).flatten
        = (k ++ ':' :: ' ' :: v) ++ '\r' :: '\n' :: (rest.map renderLine).flatten := by
      simp [List.append_assoc]
    rw [hshape, splitCRLFAux_consume hw [] ((rest.map renderLine).flatten)]
    have ih' := ih fun kv hkv => h kv (List.mem_cons_of_mem _ hkv)
    unfold splitLinesCRLF renderLines at ih'
    rw [ih']
    simp

theorem splitFirstColon_append {k : List Char} (hk : ':' ∉ k) (rest : List Char) :
    splitFirstColon (k ++ ':' :: rest) = some (k, rest) := by
  induction k with
  | nil => simp [splitFirstColon]
  | cons c cs ih =>
    have hc : c ≠ ':' := fun he => hk (by simp [he])
    simp [splitFirstColon, hc, ih fun hm => hk (List.mem_cons_of_mem c hm)]

theorem parseHeaderLine_render {k v : List Char} (hk : ':' ∉ k)
    (htk : trimSpace k = k) (htv : trimSpace v = v) :
    parseHeaderLine (k ++ ':' :: ' ' :: v) = some (k, v) := by
  unfold parseHeaderLine
  rw [splitFirstColon_append hk (' ' :: v)]
  simp [htk, trimSpace_space_cons htv]

theorem parseLineStep_render (m : HeaderMap) {k v : List Char} (hk : ':' ∉ k)
    (htk : trimSpace k = k) (htv : trimSpace v = v) :
    parseLineStep m (k ++ ':' :: ' ' :: v) = mapSet m k v := by
  unfold parseLineStep
  rw [parseHeaderLine_render hk htk htv]

theorem foldl_parseLineStep_rendered (pairs : List (List Char × List Char)) :
    ∀ acc : HeaderMap,
      (∀ kv ∈ pairs, kv.1 ∉ acc.map Prod.fst) →
      (pairs.map Prod.fst).Nodup →
      (∀ kv ∈ pairs, ':' ∉ kv.1 ∧ trimSpace kv.1 = kv.1 ∧ trimSpace kv.2 = kv.2) →
      List.foldl parseLineStep acc (pairs.map fun kv => kv.1 ++ ':' :: ' ' :: kv.2)
        = acc ++ pairs := by
  induction pairs with
  | nil =>
    intro acc _ _ _
    simp
  | cons kv rest ih =>
    obtain ⟨k, v⟩ := kv
    intro acc hdisj hnd hwf
    obtain ⟨hk, htk, htv⟩ := hwf (k, v) (by simp)
    simp only [List.map_cons, List.foldl_cons]
    rw [parseLineStep_render acc hk htk htv,
      mapSet_eq_append v (hdisj (k, v) (by simp))]
    simp only [List.map_cons, List.nodup_cons] at hnd
    have hdisj' : ∀ kv ∈ rest, kv.1 ∉ (acc ++ [(k, v)]).map Prod.fst := by
      intro kv hkv
      rw [List.map_append, List.mem_append]
      intro hmem
      rcases hmem with hm | hm
      · exact hdisj kv (List.mem_cons_of_mem _ hkv) hm
      · simp only [List.map_cons, List.map_nil, List.mem_singleton] at hm
        exact hnd.1 (hm ▸ List.mem_map_of_mem Prod.fst hkv)
    rw [ih (acc ++ [(k, v)]) hdisj' hnd.2
      fun kv hkv => hwf kv (List.mem_cons_of_mem _ hkv)]
    simp

theorem mem_of_mem_keys {m : HeaderMap} {k : List Char}
    (h : k ∈ m.map Prod.fst) : (k, mapGet m k) ∈ m := by
  induction m with
  | nil => cases h
  | cons kv rest ih =>
    obtain ⟨k0, v0⟩ := kv
    by_cases he : k0 = k
    · subst he
      simp [mapGet, mapLookup]
    · simp only [List.map_cons, List.mem_cons] at h
      rcases h with h | h
      · exact absurd h.symm he
      · have := ih h
        simp only [mapGet, mapLookup, if_neg he] at this ⊢
        exact List.mem_cons_of_mem _ this

theorem map_keys_mapGet {m : HeaderMap} (hnd : NodupKeys m) :
    (m.map Prod.fst).map (fun k => (k, mapGet m k)) = m := by
  induction m with
  | nil => rfl
  | cons kv rest ih =>
    obtain ⟨k, v⟩ := kv
    simp only [NodupKeys, List.map_cons, List.nodup_cons] at hnd
    simp only [List.map_cons]
    have htail : (rest.map Prod.fst).map (fun k' => (k', mapGet ((k, v) :: rest) k'))
        = (rest.map Prod.fst).map (fun k' => (k', mapGet rest k')) := by
      apply List.map_congr_left
      intro k' hk'
      have hne : k ≠ k' := fun he => hnd.1 (he ▸ hk')
      simp [mapGet, mapLookup, hne]
    rw [htail, ih hnd.2]
    simp [mapGet, mapLookup]

theorem sortHeaders_roundtrip {m : HeaderMap} (h : WFHeaderMap m) :
    sortHeaders (parseHeaderLines (splitLinesCRLF (sortHeaders m))) = sortHeaders m := by
  obtain ⟨hnd, hwf⟩ := h
  have hmem : ∀ kv ∈ (sortedKeys m).map fun k => (k, mapGet m k), kv ∈ m := by
    intro kv hkv
    obtain ⟨k, hk, rfl⟩ := List.mem_map.mp hkv
    exact mem_of_mem_keys ((sortedKeys_perm m).mem_iff.mp hk)
  have hkeys : ((sortedKeys m).map fun k => (k, mapGet m k)).map Prod.fst
      = sortedKeys m := by
    rw [List.map_map]
    simp [Function.comp_def]
  have hndp : (((sortedKeys m).map fun k => (k, mapGet m k)).map Prod.fst).Nodup := by
    rw [hkeys]
    exact ((sortedKeys_perm m).nodup_iff).mpr hnd
  have hperm : ((sortedKeys m).map fun k => (k, mapGet m k)).Perm m := by
    have h1 := (sortedKeys_perm m).map fun k => (k, mapGet m k)
    rwa [map_keys_mapGet hnd] at h1
  have hreparse : parseHeaderLines (splitLinesCRLF (sortHeaders m))
      = (sortedKeys m).map fun k => (k, mapGet m k) := by
    rw [sortHeaders_eq_render]
    rw [splitLines_renderLines ((sortedKeys m).map fun k => (k, mapGet m k))
      (fun kv hkv => ⟨(hwf kv (hmem kv hkv)).2.1, (hwf kv (hmem kv hkv)).2.2.2.1⟩)]
    unfold parseHeaderLines
    rw [List.foldl_append]
    rw [foldl_parseLineStep_rendered ((sortedKeys m).map fun k => (k, mapGet m k)) []
      (by simp) hndp
      (fun kv hkv => ⟨(hwf kv (hmem kv hkv)).1, (hwf kv (hmem kv hkv)).2.2.1,
        (hwf kv (hmem kv hkv)).2.2.2.2⟩)]
    simp [parseLineStep, parseHeaderLine, splitFirstColon]
  rw [hreparse]
  exact sortHeaders_perm hperm hndp

/-! ### Scan and finalization lemmas -/

theorem scanHeaders_hasFrom_true (lines : List (List Char)) (hs : HeaderMap)
    (fe : EmailAddress) : (scanHeaders lines hs true fe).hasFrom = true := by
  induction lines generalizing hs fe with
  | nil => rfl
  | cons line rest ih =>
    simp only [scanHeaders]
    by_cases hl : line = []
    · simp [hl]
    · simp only [if_neg hl]
      cases hp : parseHeaderLine line with
      | none => simp [hp, ih]
      | some kv =>
        obtain ⟨k, v⟩ := kv
        by_cases hf : equalFold k (str "From")
        · simp [hp, hf, ih]
        · simp [hp, hf, ih]

theorem scanHeaders_fromEmail (lines : List (List Char)) (hs : HeaderMap)
    (fe : EmailAddress) (h : (scanHeaders lines hs false fe).hasFrom = false) :
    (scanHeaders lines hs false fe).fromEmail = fe := by
  induction lines generalizing hs fe with
  | nil => rfl
  | cons line rest ih =>
    simp only [scanHeaders] at h ⊢
    by_cases hl : line = []
    · simp [hl]
    · simp only [if_neg hl] at h ⊢
      cases hp : parseHeaderLine line with
      | none =>
        simp only [hp] at h ⊢
        exact ih _ _ h
      | some kv =>
        obtain ⟨k, v⟩ := kv
        by_cases hf : equalFold k (str "From")
        · simp only [hp, hf, if_true] at h
          rw [scanHeaders_hasFrom_true] at h
          cases h
        · simp only [hp, if_neg hf] at h ⊢
          exact ih _ _ h

theorem mapLookup_finalize_other (p : ParsedInput) (msgid : List Char) {k : List Char}
    (h1 : k ≠ str "From") (h2 : k ≠ str "Message-ID") (h3 : k ≠ str "User-Agent") :
    mapLookup (finalizeHeaders p msgid) k = mapLookup p.headers k := by
  simp only [finalizeHeaders]
  rw [mapLookup_mapSet_ne _ _ (Ne.symm h3)]
  by_cases hf : p.hasFrom
  · simp only [if_pos hf]
    by_cases hm : (mapLookup p.headers (str "Message-ID")).isSome
    · simp only [if_pos hm]
    · simp only [if_neg hm]
      rw [mapLookup_mapSet_ne _ _ (Ne.symm h2)]
  · simp only [if_neg hf]
    by_cases hm : (mapLookup (mapSet p.headers (str "From")
        (p.fromEmail.name ++ ' ' :: '<' :: (p.fromEmail.address ++ ['>'])))
        (str "Message-ID")).isSome
    · simp only [if_pos hm]
      rw [mapLookup_mapSet_ne _ _ (Ne.symm h1)]
    · simp only [if_neg hm]
      rw [mapLookup_mapSet_ne _ _ (Ne.symm h2), mapLookup_mapSet_ne _ _ (Ne.symm h1)]

theorem recipient_empty_of_no_to {lines : List (List Char)} (msgid : List Char)
    (h : mapLookup (parseInput lines).headers (str "To") = none) :
    (buildMessage lines msgid).recipient = [] := by
  simp only [buildMessage]
  have h2 : mapLookup (finalizeHeaders (parseInput lines) msgid) (str "To") = none := by
    rw [mapLookup_finalize_other _ _ (by decide) (by decide) (by decide)]
    exact h
  simp only [mapGet, h2, Option.getD_none]
  decide

/-! ### Session lemmas -/

theorem dial_mem_runSession (u : Bool) (o : SessionOutcomes) (s r m : List Char)
    (hp : o.proxyInitOk = true) : SmtpAction.dial ∈ (runSession u o s r m).1 := by
  unfold runSession
  rw [hp]
  repeat' split
  all_goals simp_all

/-! ### Message-ID format lemmas -/

theorem byteHex_flatten_length (bytes : List Nat) :
    ((bytes.map byteHex).flatten).length = 2 * bytes.length := by
  induction bytes with
  | nil => rfl
  | cons b rest ih =>
    simp only [List.map_cons, List.flatten_cons, List.length_append, ih, byteHex]
    simp
    omega

theorem byteHex_flatten_all (bytes : List Nat) :
    ((bytes.map byteHex).flatten).all isLowerHexChar = true := by
  induction bytes with
  | nil => rfl
  | cons b rest ih =>
    simp [byteHex, ih, isLowerHexChar_hexDigit (b / 16 % 16) (Nat.mod_lt _ (by omega)),
      isLowerHexChar_hexDigit (b % 16) (Nat.mod_lt _ (by omega))]

theorem letters_map_all (bs : List Nat) :
    (bs.map fun b => letterChar (b % 26)).all isLowerAlphaChar = true := by
  induction bs with
  | nil => rfl
  | cons b rest ih =>
    simp [ih, isLowerAlphaChar_letterChar (b % 26) (Nat.mod_lt _ (by omega))]

theorem finalize_msgid_of_present (p : ParsedInput) (msgid : List Char)
    (h : (mapLookup p.headers (str "Message-ID")).isSome = true) :
    finalizeHeaders p msgid
      = mapSet (if p.hasFrom then p.headers
          else mapSet p.headers (str "From")
            (p.fromEmail.name ++ ' ' :: '<' :: (p.fromEmail.address ++ ['>'])))
        (str "User-Agent") userAgentValue := by
  simp only [finalizeHeaders]
  by_cases hf : p.hasFrom
  · simp only [if_pos hf, if_pos h]
  · simp only [if_neg hf]
    rw [if_pos (by rw [mapLookup_mapSet_ne _ _ (by decide)]; exact h)]

/-! ### Claims -/

/-- C1: the claim says `sortHeaders` emits priority-table headers in ascending
numeric rank order (From = 1 before References = 10).  The code instead sorts
the tagged strings `"<rank>|<key>"` with `sort.Strings`, i.e. lexicographically,
and `"10|References"` sorts before `"1|From"` (`'0' < '|'`).  On the map
{From ↦ a@x, References ↦ <r@x>} the code emits References first, so the claim
fails on the code; the code's own comment ("Sort priority headers by their
priority number") states the claimed, intended behavior. -/

theorem sortHeaders_rank_order_bug :
    sortHeaders [(str "From", str "a@x"), (str "References", str "<r@x>")]
      = str "References: <r@x>\r\nFrom: a@x\r\n"
    ∧ sortHeaders [(str "From", str "a@x"), (str "References", str "<r@x>")]
      ≠ str "From: a@x\r\nReferences: <r@x>\r\n" :=
  ⟨by decide, by decide⟩

/-- C2 (counterexample): for the input `Subject: hi` — which contains no To
header at all, under any casing — the run does not fail: with a cooperative
proxy and server every step succeeds (exit status 0), and the connection (the
SOCKS5 dial) is attempted, contradicting "fails fatally … and no network
connection is attempted".  The authoritative code never checks for a missing
To header; it dials first and later reads `headers["To"]`, getting `""`. -/
theorem missing_to_no_fatal_counterexample :
    mapLookup (parseInput [str "Subject: hi"]).headers (str "To") = none
    ∧ (∀ kv ∈ (parseInput [str "Subject: hi"]).headers,
        equalFold kv.1 (str "To") = false)
    ∧ (mainRun [str "Subject: hi"] false (str "<g@id.xy>") allOk).2 = true
    ∧ SmtpAction.dial ∈ (mainRun [str "Subject: hi"] false (str "<g@id.xy>") allOk).1 :=
  ⟨by decide, by decide, by decide, by decide⟩

/-- C2 (amended): for every input whose header map has no entry under the
exact key `"To"`, the run is not aborted before the network phase: the SOCKS5
connection is still attempted (whenever the dialer is constructed, which the
code does unconditionally), and the recipient address later passed to RCPT TO
is the empty string, the result of parsing the zero value `headers["To"]`. -/
theorem missing_to_proceeds_to_connect (lines : List (List Char)) (u : Bool)
    (msgid : List Char) (o : SessionOutcomes)
    (h : mapLookup (parseInput lines).headers (str "To") = none) :
    (buildMessage lines msgid).recipient = []
    ∧ (o.proxyInitOk = true → SmtpAction.dial ∈ (mainRun lines u msgid o).1) :=
  ⟨recipient_empty_of_no_to msgid h,
   fun hp => dial_mem_runSession u o _ _ _ hp⟩

/-- C2 (witness): the amended statement at the concrete To-less input
`Subject: w`. -/
theorem missing_to_proceeds_to_connect_witness :
    mapLookup (parseInput [str "Subject: w"]).headers (str "To") = none
    ∧ (buildMessage [str "Subject: w"] (str "<w@id.xy>")).recipient = []
    ∧ SmtpAction.dial ∈ (mainRun [str "Subject: w"] true (str "<w@id.xy>") allOk).1 := by
  refine ⟨by decide, ?_, ?_⟩
  · exact (missing_to_proceeds_to_connect [str "Subject: w"] true (str "<w@id.xy>")
      allOk (by decide)).1
  · exact (missing_to_proceeds_to_connect [str "Subject: w"] true (str "<w@id.xy>")
      allOk (by decide)).2 rfl

/-- C3 (counterexample): the claim matches the Message-ID header
case-insensitively, but the code checks only the exact map key
`"Message-ID"`.  For the input `MESSAGE-ID: <custom@x.y>` — whose key matches
`Message-ID` case-insensitively — a second, generated Message-ID is inserted,
and the emitted block contains both the caller's line and the generated one. -/
theorem message_id_case_insensitive_counterexample :
    equalFold (str "MESSAGE-ID") (str "Message-ID") = true
    ∧ mapGet (finalizeHeaders (parseInput [str "MESSAGE-ID: <custom@x.y>"])
        (str "<generated@id.xy>")) (str "Message-ID") = str "<generated@id.xy>"
    ∧ mapGet (finalizeHeaders (parseInput [str "MESSAGE-ID: <custom@x.y>"])
        (str "<generated@id.xy>")) (str "MESSAGE-ID") = str "<custom@x.y>"
    ∧ sortHeaders (finalizeHeaders (parseInput [str "MESSAGE-ID: <custom@x.y>"])
        (str "<generated@id.xy>"))
      = str "From: Mini Mailer <bounce.me@mini.mailer.msg>\r\nMESSAGE-ID: <custom@x.y>\r\nMessage-ID: <generated@id.xy>\r\nUser-Agent: Mini Mailer v0.1.2\r\n" :=
  ⟨by decide, by decide, by decide, by decide⟩

/-- C3 (amended): for every input whose parsed header map contains the exact
key `"Message-ID"` (the canonical spelling, as the check in the code is
case-sensitive), the finalized header set keeps the caller-supplied value
under that key, and the finalized set does not depend on the generated
identifier at all — no second Message-ID is inserted. -/
theorem message_id_exact_key_preserved (lines : List (List Char))
    (msgid msgid2 : List Char)
    (h : (mapLookup (parseInput lines).headers (str "Message-ID")).isSome = true) :
    mapGet (finalizeHeaders (parseInput lines) msgid) (str "Message-ID")
      = mapGet (parseInput lines).headers (str "Message-ID")
    ∧ finalizeHeaders (parseInput lines) msgid
        = finalizeHeaders (parseInput lines) msgid2 := by
  constructor
  · rw [finalize_msgid_of_present _ _ h, mapGet_mapSet_ne _ _ (by decide)]
    by_cases hf : (parseInput lines).hasFrom
    · rw [if_pos hf]
    · rw [if_neg hf, mapGet_mapSet_ne _ _ (by decide)]
  · rw [finalize_msgid_of_present _ _ h, finalize_msgid_of_present _ _ h]

/-- C3 (witness): the amended statement at the concrete input
`Message-ID: <mine@x.y>` and two distinct generated identifiers. -/
theorem message_id_exact_key_preserved_witness :
    (mapLookup (parseInput [str "Message-ID: <mine@x.y>"]).headers
      (str "Message-ID")).isSome = true
    ∧ mapGet (finalizeHeaders (parseInput [str "Message-ID: <mine@x.y>"])
        (str "<gen1@a.b>")) (str "Message-ID")
      = mapGet (parseInput [str "Message-ID: <mine@x.y>"]).headers (str "Message-ID")
    ∧ finalizeHeaders (parseInput [str "Message-ID: <mine@x.y>"]) (str "<gen1@a.b>")
      = finalizeHeaders (parseInput [str "Message-ID: <mine@x.y>"]) (str "<gen2@c.d>") :=
  ⟨by decide,
   (message_id_exact_key_preserved [str "Message-ID: <mine@x.y>"] (str "<gen1@a.b>")
     (str "<gen2@c.d>") (by decide)).1,
   (message_id_exact_key_preserved [str "Message-ID: <mine@x.y>"] (str "<gen1@a.b>")
     (str "<gen2@c.d>") (by decide)).2⟩

/-- C4: when the random source succeeds (5 bytes for the hex part, 5 and 2
bytes for the letter groups), the generated identifier is
`<` + 10 lowercase hex digits + `.` + the decimal timestamp + `@` +
5 lowercase letters + `.` + 2 lowercase letters + `>`. -/
theorem generateMessageID_format (bytes dom tld : List Nat) (ts : Nat)
    (hb : bytes.length = 5) (hd : dom.length = 5) (ht : tld.length = 2) :
    ∃ hex domL tldL,
      generateMessageID bytes ts (some dom) (some tld)
        = '<' :: (hex ++ '.' :: (natRepr ts ++ '@' :: (domL ++ '.' :: (tldL ++ ['>']))))
      ∧ hex.length = 10 ∧ hex.all isLowerHexChar = true
      ∧ natRepr ts ≠ [] ∧ (natRepr ts).all isDigitChar = true
      ∧ domL.length = 5 ∧ domL.all isLowerAlphaChar = true
      ∧ tldL.length = 2 ∧ tldL.all isLowerAlphaChar = true := by
  refine ⟨(bytes.map byteHex).flatten, dom.map fun b => letterChar (b % 26),
    tld.map fun b => letterChar (b % 26), rfl, ?_, byteHex_flatten_all bytes,
    natRepr_ne_nil ts, natRepr_all_digits ts, ?_, letters_map_all dom, ?_,
    letters_map_all tld⟩
  · rw [byteHex_flatten_length, hb]
  · rw [List.length_map, hd]
  · rw [List.length_map, ht]

/-- C4 (witness): the format statement at concrete random bytes and a concrete
timestamp. -/
theorem generateMessageID_format_witness :
    ([18, 0, 255, 58, 123] : List Nat).length = 5
    ∧ ∃ hex domL tldL,
        generateMessageID [18, 0, 255, 58, 123] 1700000000
          (some [3, 7, 11, 19, 25]) (some [0, 13])
          = '<' :: (hex ++ '.' :: (natRepr 1700000000
              ++ '@' :: (domL ++ '.' :: (tldL ++ ['>']))))
        ∧ hex.length = 10 ∧ hex.all isLowerHexChar = true
        ∧ natRepr 1700000000 ≠ [] ∧ (natRepr 1700000000).all isDigitChar = true
        ∧ domL.length = 5 ∧ domL.all isLowerAlphaChar = true
        ∧ tldL.length = 2 ∧ tldL.all isLowerAlphaChar = true :=
  ⟨rfl, generateMessageID_format [18, 0, 255, 58, 123] [3, 7, 11, 19, 25] [0, 13]
    1700000000 (by decide) (by decide) (by decide)⟩

/-- C5: for every address line containing both `<` and `(`, `parseEmailHeader`
applies the angle-bracket interpretation (the first branch) and never the
parenthetical one: the `<` check is performed first and a `<` in the original
line survives prefix-stripping (neither `To:` nor `From:` contains `<`) and
whitespace trimming. -/
theorem parseEmailHeader_prefers_angle (line : List Char)
    (h1 : '<' ∈ line) (_h2 : '(' ∈ line) :
    parseEmailHeader line = angleInterp (preprocessAddr line) := by
  have hmem : '<' ∈ preprocessAddr line := by
    unfold preprocessAddr
    exact mem_trimSpace (by decide)
      (mem_trimPrefixStr (by decide) (mem_trimPrefixStr (by decide) h1))
  obtain ⟨i, hi⟩ := lastIndexOf_isSome_of_mem hmem
  simp only [parseEmailHeader, angleInterp, hi, Option.getD_some]

/-- C5 (witness): the angle form wins on the concrete line
`To: Alice <a@x.y> (note)`, which contains both `<` and `(`. -/
theorem parseEmailHeader_prefers_angle_witness :
    '<' ∈ str "To: Alice <a@x.y> (note)"
    ∧ '(' ∈ str "To: Alice <a@x.y> (note)"
    ∧ parseEmailHeader (str "To: Alice <a@x.y> (note)")
      = angleInterp (preprocessAddr (str "To: Alice <a@x.y> (note)")) :=
  ⟨by decide, by decide,
   parseEmailHeader_prefers_angle (str "To: Alice <a@x.y> (note)")
     (by decide) (by decide)⟩

/-- C6: for every input with no From header line (no colon line whose trimmed
key equals "From" case-insensitively), the finalized header set maps "From"
to the synthesized default `Mini Mailer <bounce.me@mini.mailer.msg>`, and the
envelope sender passed to MAIL FROM is the placeholder address
`bounce.me@mini.mailer.msg`. -/
theorem no_from_synthesizes_default (lines : List (List Char)) (msgid : List Char)
    (h : (parseInput lines).hasFrom = false) :
    mapGet (finalizeHeaders (parseInput lines) msgid) (str "From")
      = str "Mini Mailer <bounce.me@mini.mailer.msg>"
    ∧ (buildMessage lines msgid).sender = str "bounce.me@mini.mailer.msg" := by
  have hfe : (parseInput lines).fromEmail = defaultFrom :=
    scanHeaders_fromEmail lines [] defaultFrom h
  have hnf : ¬((parseInput lines).hasFrom = true) := by
    rw [h]
    exact Bool.false_ne_true
  constructor
  · simp only [finalizeHeaders, if_neg hnf]
    rw [hfe]
    by_cases hm : (mapLookup (mapSet (parseInput lines).headers (str "From")
        (defaultFrom.name ++ ' ' :: '<' :: (defaultFrom.address ++ ['>'])))
        (str "Message-ID")).isSome
    · rw [if_pos hm, mapGet_mapSet_ne _ _ (by decide), mapGet_mapSet_self]
      decide
    · rw [if_neg hm, mapGet_mapSet_ne _ _ (by decide),
        mapGet_mapSet_ne _ _ (by decide), mapGet_mapSet_self]
      decide
  · simp only [buildMessage]
    rw [hfe]
    decide

/-- C6 (witness): the synthesized-From statement at the concrete From-less
input `To: c@z.com`. -/
theorem no_from_synthesizes_default_witness :
    (parseInput [str "To: c@z.com"]).hasFrom = false
    ∧ mapGet (finalizeHeaders (parseInput [str "To: c@z.com"]) (str "<g6@a.b>"))
        (str "From") = str "Mini Mailer <bounce.me@mini.mailer.msg>"
    ∧ (buildMessage [str "To: c@z.com"] (str "<g6@a.b>")).sender
        = str "bounce.me@mini.mailer.msg" :=
  ⟨by decide,
   (no_from_synthesizes_default [str "To: c@z.com"] (str "<g6@a.b>") (by decide)).1,
   (no_from_synthesizes_default [str "To: c@z.com"] (str "<g6@a.b>") (by decide)).2⟩

/-- C7: `sortHeaders` is a deterministic function of the unordered header map:
two association lists that are permutations of each other (two iteration
orders of the same Go map, whose keys are distinct) serialize to the identical
byte sequence. -/
theorem sortHeaders_deterministic (m₁ m₂ : HeaderMap) (hperm : m₁.Perm m₂)
    (hnd : NodupKeys m₁) : sortHeaders m₁ = sortHeaders m₂ :=
  sortHeaders_perm hperm hnd

/-- C7 (witness): the two iteration orders of the concrete two-entry map
{Subject ↦ hi, X-A ↦ 1} serialize identically. -/
theorem sortHeaders_deterministic_witness :
    ([(str "Subject", str "hi"), (str "X-A", str "1")] : HeaderMap).Perm
      [(str "X-A", str "1"), (str "Subject", str "hi")]
    ∧ NodupKeys [(str "Subject", str "hi"), (str "X-A", str "1")]
    ∧ sortHeaders [(str "Subject", str "hi"), (str "X-A", str "1")]
      = sortHeaders [(str "X-A", str "1"), (str "Subject", str "hi")] :=
  ⟨by decide, by decide,
   sortHeaders_deterministic [(str "Subject", str "hi"), (str "X-A", str "1")]
     [(str "X-A", str "1"), (str "Subject", str "hi")] (by decide) (by decide)⟩

/-- C8: serializing a header map, splitting the output back into lines on
CRLF, reparsing each line as a header line (split on the first colon, name and
value trimmed) and serializing the rebuilt map yields the identical byte
sequence.  The hypothesis is the invariant every header map the program builds
satisfies: distinct keys; keys colon-free, newline-free and trimmed; values
newline-free and trimmed. -/
theorem sortHeaders_reparse_idempotent (m : HeaderMap) (h : WFHeaderMap m) :
    sortHeaders (parseHeaderLines (splitLinesCRLF (sortHeaders m))) = sortHeaders m :=
  sortHeaders_roundtrip h

/-- C8 (witness): the round trip on the concrete map
{Subject ↦ hi, From ↦ a@b.c}. -/
theorem sortHeaders_reparse_idempotent_witness :
    WFHeaderMap [(str "Subject", str "hi"), (str "From", str "a@b.c")]
    ∧ sortHeaders (parseHeaderLines (splitLinesCRLF
        (sortHeaders [(str "Subject", str "hi"), (str "From", str "a@b.c")])))
      = sortHeaders [(str "Subject", str "hi"), (str "From", str "a@b.c")] :=
  ⟨by decide,
   sortHeaders_reparse_idempotent [(str "Subject", str "hi"), (str "From", str "a@b.c")]
     (by decide)⟩

/-- C9: a STARTTLS failure does not abort the session: its error is discarded,
so when the proxy dial and the greeting succeed (and authentication succeeds
whenever it is configured), MAIL FROM is still issued, and the whole session —
trace and exit status — is unchanged from the run in which the negotiation
succeeded. -/
theorem startTLS_failure_tolerated (u : Bool) (o : SessionOutcomes)
    (s r m : List Char) (hp : o.proxyInitOk = true) (hd : o.dialOk = true)
    (hg : o.greetOk = true) (htls : o.tlsOk = false)
    (ha : u = true → o.authOk = true) :
    SmtpAction.mailFrom s ∈ (runSession u o s r m).1
    ∧ runSession u o s r m = runSession u { o with tlsOk := true } s r m := by
  constructor
  · unfold runSession
    rw [hp, hd, hg]
    have hauth : (u && !o.authOk) = false := by
      cases u with
      | false => rfl
      | true =>
        rw [ha rfl]
        rfl
    rw [hauth]
    repeat' split
    all_goals simp_all
  · cases o
    rfl

/-- C9 (witness): the session with only the STARTTLS step failing still issues
MAIL FROM. -/
theorem startTLS_failure_tolerated_witness :
    tlsFailOutcomes.tlsOk = false
    ∧ SmtpAction.mailFrom (str "a@x.y")
        ∈ (runSession true tlsFailOutcomes (str "a@x.y") (str "b@z.w") (str "m")).1 :=
  ⟨rfl,
   (startTLS_failure_tolerated true tlsFailOutcomes (str "a@x.y") (str "b@z.w")
     (str "m") rfl rfl rfl rfl fun _ => rfl).1⟩

/-- C10: for every input and every generated identifier, the finalized header
set maps the exact key "User-Agent" to the fixed string `Mini Mailer v0.1.2`;
the assignment is unconditional (it does not depend on any flag), overwriting
any caller-supplied value stored under that exact key. -/
theorem user_agent_always_set (lines : List (List Char)) (msgid : List Char) :
    mapGet (finalizeHeaders (parseInput lines) msgid) (str "User-Agent")
      = str "Mini Mailer v0.1.2" := by
  simp only [finalizeHeaders]
  rw [mapGet_mapSet_self]
  rfl
